import Mathlib

/-!
# Gravity-Sim: vector algebra, acceleration law and velocity-Verlet step

A shallow embedding of `math_cpp.cpp`, `physics_cpp.cpp` and the configuration /
stepping part of `main.cpp`.

The functions are written once, over any scalar type `α` that has the operations they
use, and are read at two instances of `double`:

* exact arithmetic, `α` a linearly ordered field (`ℝ` with `Real.sqrt` where magnitudes
  are involved): the idealisation in which the conservation laws are stated;
* `F64`, IEEE-754 binary64 with round-to-nearest-even, signed zeros, infinities and NaN
  (`F64.sqrt` for `std::sqrt`): the values the compiled program computes.

The library function `std::sqrt` is a parameter `sqrt : α → α` of every function that
calls it, and the stream extraction `iss >> tmp` is a parameter of the input helpers.
-/

namespace GravitySim

/-- The `Vec2` struct of `math.h`. -/
structure Vec2 (α : Type) where
  x : α
  y : α
deriving DecidableEq, Repr

variable {α : Type}

/-! ## `math_cpp.cpp` -/

/-- `Vec2 add(Vec2 a, Vec2 b) { return {a.x + b.x, a.y + b.y}; }` -/
def add [Add α] (a b : Vec2 α) : Vec2 α := ⟨a.x + b.x, a.y + b.y⟩

/-- `Vec2 sub(Vec2 a, Vec2 b) { return {a.x - b.x, a.y - b.y}; }` -/
def sub [Sub α] (a b : Vec2 α) : Vec2 α := ⟨a.x - b.x, a.y - b.y⟩

/-- `Vec2 scale(Vec2 a, double k) { return {a.x * k, a.y * k}; }` -/
def scale [Mul α] (a : Vec2 α) (k : α) : Vec2 α := ⟨a.x * k, a.y * k⟩

/-- `double dot(Vec2 a, Vec2 b) { return a.x * b.x + a.y * b.y; }` -/
def dot [Add α] [Mul α] (a b : Vec2 α) : α := a.x * b.x + a.y * b.y

/-- `double norm(Vec2 a) { return std::sqrt(dot(a, a)); }` -/
def norm [Add α] [Mul α] (sqrt : α → α) (a : Vec2 α) : α := sqrt (dot a a)

/-! ## `physics_cpp.cpp` -/

/-- The value of `rmag * rmag * rmag` at line 13 of `physics_cpp.cpp`, i.e. the divisor
that `accel` uses after the clamp of lines 9-12. -/
def accelDivisor [Add α] [Mul α] [LT α] [DecidableRel (α := α) (· < ·)] [OfScientific α]
    (sqrt : α → α) (r : Vec2 α) : α :=
  let eps : α := 1e-9
  let rmag := norm sqrt r
  let rmag := if rmag < eps then eps else rmag
  rmag * rmag * rmag

/-- `Vec2 accel(Vec2 r, double mu)`; the write to `std::cerr` is not modelled. -/
def accel [Add α] [Mul α] [Div α] [Neg α] [LT α] [DecidableRel (α := α) (· < ·)]
    [OfScientific α] (sqrt : α → α) (r : Vec2 α) (mu : α) : Vec2 α :=
  let eps : α := 1e-9
  let rmag := norm sqrt r
  let rmag := if rmag < eps then eps else rmag
  let factor := -mu / (rmag * rmag * rmag)
  scale r factor

/-- `void verlet(Vec2& r, Vec2& v, Vec2& a, double dt, double mu)`; the three
reference parameters are returned as the new triple `(r, v, a)`. -/
def verlet [Add α] [Mul α] [Div α] [Neg α] [LT α] [DecidableRel (α := α) (· < ·)]
    [OfScientific α] (sqrt : α → α) (r v a : Vec2 α) (dt mu : α) :
    Vec2 α × Vec2 α × Vec2 α :=
  let r_new := add r (add (scale v dt) (scale a (0.5 * dt * dt)))
  let a_new := accel sqrt r_new mu
  let v_new := add v (scale (add a a_new) (0.5 * dt))
  (r_new, v_new, a_new)

/-- The state `(r, v, a)` after `n` consecutive calls `verlet(r, v, a, dt, mu)`. -/
def verletN [Add α] [Mul α] [Div α] [Neg α] [LT α] [DecidableRel (α := α) (· < ·)]
    [OfScientific α] (sqrt : α → α) (dt mu : α) :
    ℕ → Vec2 α × Vec2 α × Vec2 α → Vec2 α × Vec2 α × Vec2 α
  | 0, s => s
  | n + 1, s =>
    let s' := verletN sqrt dt mu n s
    verlet sqrt s'.1 s'.2.1 s'.2.2 dt mu

/-! ## `main.cpp`: diagnostics, configuration and the driving loop -/

/-- The HUD diagnostic `E` (lines 127-129): `0.5 * vsq - mu / rmag`. -/
def energy [Add α] [Sub α] [Mul α] [Div α] [OfScientific α] (sqrt : α → α) (r v : Vec2 α) (mu : α) : α :=
  let rmag := norm sqrt r
  let vsq := dot v v
  0.5 * vsq - mu / rmag

/-- The HUD diagnostic `L` (line 130): `r.x * v.y - r.y * v.x`. -/
def angmom [Sub α] [Mul α] (r v : Vec2 α) : α := r.x * v.y - r.y * v.x

/-- `read_or_keep` (lines 11-16): `line` is what `std::getline` read and `extract line`
is the outcome of `iss >> tmp` (`none` when the extraction fails). -/
def read_or_keep (extract : String → Option α) (line : String) (value : α) : α :=
  if !line.isEmpty then
    match extract line with
    | some tmp => tmp
    | none => value
  else value

/-- `read_pair_or_keep` (lines 18-23): `extractPair line` is the outcome of
`iss >> tx >> ty`. -/
def read_pair_or_keep (extractPair : String → Option (α × α)) (line : String)
    (value : α × α) : α × α :=
  if !line.isEmpty then
    match extractPair line with
    | some (tx, ty) => (tx, ty)
    | none => value
  else value

/-- The values `mu, r0x, r0y, v0x, v0y` that `main` holds at line 63. -/
structure Config (α : Type) where
  mu : α
  r0x : α
  r0y : α
  v0x : α
  v0y : α

/-- Lines 50-61 of `main`: defaults, the three prompts and the `|r0|` check. -/
def configure [Add α] [Mul α] [LT α] [DecidableRel (α := α) (· < ·)] [OfScientific α]
    (sqrt : α → α) (extract : String → Option α)
    (extractPair : String → Option (α × α)) (muLine r0Line v0Line : String) : Config α :=
  let mu := read_or_keep extract muLine 1.0
  let r0 := read_pair_or_keep extractPair r0Line (1.0, 0.0)
  let v0 := read_pair_or_keep extractPair v0Line (0.0, 1.0)
  let r0 := if sqrt (r0.1 * r0.1 + r0.2 * r0.2) < 1e-6 then (1.0, 0.0) else r0
  ⟨mu, r0.1, r0.2, v0.1, v0.2⟩

/-- The simulation variables of `main`'s loop. -/
structure Sim (α : Type) where
  r : Vec2 α
  v : Vec2 α
  a : Vec2 α
  t : α
  paused : Bool
  box : α

/-- Lines 70-72 and 95-97: the state before the first frame. -/
def initSim [Add α] [Mul α] [Div α] [Neg α] [LT α] [DecidableRel (α := α) (· < ·)]
    [OfScientific α] (sqrt : α → α) (cfg : Config α) : Sim α :=
  let r : Vec2 α := ⟨cfg.r0x, cfg.r0y⟩
  let v : Vec2 α := ⟨cfg.v0x, cfg.v0y⟩
  ⟨r, v, accel sqrt r cfg.mu, 0.0, false, 2.0⟩

/-- The window events that `main` distinguishes. -/
inductive Event where
  | closed
  | keySpace
  | keyR
  | keyUp
  | keyDown
  | resized
  | other
deriving DecidableEq, Repr

/-- Lines 102-117: the effect of one polled event on the simulation variables. -/
def handleEvent [Add α] [Mul α] [Div α] [Neg α] [LT α] [DecidableRel (α := α) (· < ·)]
    [OfScientific α] (sqrt : α → α) (cfg : Config α) (s : Sim α) : Event → Sim α
  | Event.keySpace => { s with paused := !s.paused }
  | Event.keyR =>
    let r : Vec2 α := ⟨cfg.r0x, cfg.r0y⟩
    let v : Vec2 α := ⟨cfg.v0x, cfg.v0y⟩
    { s with r := r, v := v, a := accel sqrt r cfg.mu, t := 0.0 }
  | Event.keyUp => { s with box := s.box * 0.9 }
  | Event.keyDown => { s with box := s.box * 1.1 }
  | _ => s

/-- Lines 121-124: `k` iterations of `verlet(r, v, a, dt, mu); t += dt;`. -/
def subSteps [Add α] [Mul α] [Div α] [Neg α] [LT α] [DecidableRel (α := α) (· < ·)]
    [OfScientific α] (sqrt : α → α) (cfg : Config α) (dt : α) : ℕ → Sim α → Sim α
  | 0, s => s
  | k + 1, s =>
    let s' := subSteps sqrt cfg dt k s
    let n := verlet sqrt s'.r s'.v s'.a dt cfg.mu
    { s' with r := n.1, v := n.2.1, a := n.2.2, t := s'.t + dt }

/-- One pass of the `while (win.isOpen())` body (lines 100-125) on the simulation
variables: the polled events in order, then 16 sub-steps with `dt = 1e-3` unless paused. -/
def frame [Add α] [Mul α] [Div α] [Neg α] [LT α] [DecidableRel (α := α) (· < ·)]
    [OfScientific α] (sqrt : α → α) (cfg : Config α) (s : Sim α) (events : List Event) : Sim α :=
  let s := events.foldl (handleEvent sqrt cfg) s
  if !s.paused then subSteps sqrt cfg 1e-3 16 s else s

/-! ## Derived runs and sample inputs -/

/-- One `verlet` call with `dt` followed by one with `-dt` on the resulting state. -/
def forwardBackward [Add α] [Mul α] [Div α] [Neg α] [LT α] [DecidableRel (α := α) (· < ·)]
    [OfScientific α] (sqrt : α → α) (r v a : Vec2 α) (dt mu : α) :
    Vec2 α × Vec2 α × Vec2 α :=
  let s := verlet sqrt r v a dt mu
  verlet sqrt s.1 s.2.1 s.2.2 (-dt) mu

/-- The extraction `iss >> tmp` on the line `-1`. -/
def extractMinusOne (line : String) : Option ℝ :=
  if line = "-1" then some (-1) else none

/-- The extraction `iss >> tx >> ty` on the line `0 0`. -/
def extractZeroPair (line : String) : Option (ℝ × ℝ) :=
  if line = "0 0" then some (0, 0) else none

/-- The reference run of the spec: `n` calls of `verlet` with `dt = 1e-3` and `mu = 1`
from `r = (1, 0)`, `v = (0, 1)`, `a = accel(r, mu)`. -/
def refRun [Add α] [Mul α] [Div α] [Neg α] [LT α] [DecidableRel (α := α) (· < ·)]
    [OfScientific α] [OfNat α 0] [OfNat α 1] (sqrt : α → α) (n : ℕ) :
    Vec2 α × Vec2 α × Vec2 α :=
  verletN sqrt 1e-3 1 n (⟨1, 0⟩, ⟨0, 1⟩, accel sqrt ⟨1, 0⟩ 1)

/-- Proof invariant of the reference run after `n` steps: the position is
`p (cos θ, sin θ)` with `p` within `2e-4` of `1` and `θ` within a factor `1 ± 6e-4` of
`n * 1e-3`, the radial product `r·v` is at most `2e-4`, the angular momentum is `1`, the
stored acceleration is `-r/p^3`, and the shadow energy `E - dt^2/8 * |a|^2` has moved by
at most `n * 1e-12` from its initial value. -/
def NearCircular (n : ℕ) (s : Vec2 ℝ × Vec2 ℝ × Vec2 ℝ) : Prop :=
  ∃ p θ : ℝ, s.1 = ⟨p * Real.cos θ, p * Real.sin θ⟩ ∧ |p - 1| ≤ 1 / 5000 ∧
    |dot s.1 s.2.1| ≤ 1 / 5000 ∧ angmom s.1 s.2.1 = 1 ∧ s.2.2 = scale s.1 (-1 / p ^ 3) ∧
    |(dot s.1 s.2.1 ^ 2 + 1) / (2 * p ^ 2) - 1 / p - (1 / 1000) ^ 2 / 8 / p ^ 4
        - (-(1 / 2) - (1 / 1000) ^ 2 / 8)| ≤ (n : ℝ) * (1 / 1000000000000) ∧
    (n : ℝ) * (1 / 1000) * (1 - 6 / 10000) ≤ θ ∧ θ ≤ (n : ℝ) * (1 / 1000) * (1 + 6 / 10000)

/-! ## IEEE-754 binary64: the arithmetic of `double`

Round-to-nearest-even with gradual underflow, overflow to infinity, signed zeros and
NaN.  Instantiating the definitions above at `F64` (with `F64.sqrt` for `std::sqrt`)
gives the values the compiled program computes. -/

/-- A binary64 value: `fin neg m e` is `(-1)^neg * m * 2^e` with `m < 2^53`,
`-1074 ≤ e ≤ 971` and `2^52 ≤ m` unless `e = -1074`. -/
inductive F64 where
  | nan
  | inf (neg : Bool)
  | fin (neg : Bool) (m : Nat) (e : Int)
deriving DecidableEq, Repr

namespace F64

/-- Number of binary digits of `n` when `n < 2^(2^i)`, by halving the window. -/
def bitLengthAux : Nat → Nat → Nat
  | 0, n => if n = 0 then 0 else 1
  | i + 1, n =>
    if n >>> (2 ^ i) = 0 then bitLengthAux i n
    else 2 ^ i + bitLengthAux i (n >>> (2 ^ i))

/-- Number of binary digits of `n` (for `n < 2^4096`). -/
def bitLength (n : Nat) : Nat := bitLengthAux 12 n

/-- Packing of a rounded significand: carry into the next binade, overflow to infinity. -/
def pack (neg : Bool) (m : Nat) (e : Int) : F64 :=
  if m = 2 ^ 53 then (if e + 1 > 971 then inf neg else fin neg (2 ^ 52) (e + 1))
  else if e > 971 then inf neg else fin neg m e

/-- Round-to-nearest-even of the exact magnitude `(M + δ) * 2^E`, where `0 ≤ δ < 1` and
`δ ≠ 0` exactly when `sticky`; `sticky = true` is only passed with `M` of 64 bits or
more. -/
def round (neg : Bool) (M : Nat) (E : Int) (sticky : Bool) : F64 :=
  if M = 0 then fin neg 0 (-1074)
  else
    let e : Int := max (E + (bitLength M : Nat) - 53) (-1074)
    if e ≤ E then pack neg (M * 2 ^ (E - e).toNat) e
    else
      let k := (e - E).toNat
      let q := M / 2 ^ k
      let r := M % 2 ^ k
      let half := 2 ^ (k - 1)
      let up : Bool := decide (half < r) || (decide (r = half) && (sticky || q % 2 == 1))
      pack neg (if up then q + 1 else q) e

/-- Correctly rounded `num / den * 2^E` for `den ≠ 0`. -/
def ofRatio (neg : Bool) (num den : Nat) (E : Int) : F64 :=
  let k := bitLength den + 64
  let n := num * 2 ^ k
  round neg (n / den) (E - k) (n % den != 0)

/-- Unary minus. -/
def neg : F64 → F64
  | nan => nan
  | inf s => inf (!s)
  | fin s m e => fin (!s) m e

/-- The function `std::fabs`. -/
def abs : F64 → F64
  | nan => nan
  | inf _ => inf false
  | fin _ m e => fin false m e

/-- The signed integer `(-1)^s * m`. -/
def signed (s : Bool) (m : Nat) : Int := if s then -(m : Int) else (m : Int)

/-- Addition. -/
def add : F64 → F64 → F64
  | nan, _ => nan
  | _, nan => nan
  | inf s, inf t => if s = t then inf s else nan
  | inf s, fin _ _ _ => inf s
  | fin _ _ _, inf t => inf t
  | fin s m e, fin t n f =>
    if m = 0 ∧ n = 0 then fin (s && t) 0 (-1074)
    else if m = 0 then fin t n f
    else if n = 0 then fin s m e
    else
      let g := min e f
      let z : Int := signed s (m * 2 ^ (e - g).toNat) + signed t (n * 2 ^ (f - g).toNat)
      if z = 0 then fin false 0 (-1074)
      else round (decide (z < 0)) z.natAbs g false

/-- Subtraction. -/
def sub (x y : F64) : F64 := add x (neg y)

/-- Multiplication. -/
def mul : F64 → F64 → F64
  | nan, _ => nan
  | _, nan => nan
  | inf s, inf t => inf (xor s t)
  | inf s, fin t n _ => if n = 0 then nan else inf (xor s t)
  | fin s m _, inf t => if m = 0 then nan else inf (xor s t)
  | fin s m e, fin t n f => round (xor s t) (m * n) (e + f) false

/-- Division. -/
def div : F64 → F64 → F64
  | nan, _ => nan
  | _, nan => nan
  | inf _, inf _ => nan
  | inf s, fin t _ _ => inf (xor s t)
  | fin s _ _, inf t => fin (xor s t) 0 (-1074)
  | fin s m e, fin t n f =>
    if n = 0 then (if m = 0 then nan else inf (xor s t))
    else ofRatio (xor s t) m n (e - f)

/-- Newton iteration for the integer square root, from a start `x ≥ √n`. -/
def isqrtAux (n : Nat) : Nat → Nat → Nat
  | 0, x => x
  | fuel + 1, x =>
    let y := (x + n / x) / 2
    if y < x then isqrtAux n fuel y else x

/-- The integer square root `⌊√n⌋`. -/
def isqrt (n : Nat) : Nat :=
  if n = 0 then 0 else isqrtAux n 200 (2 ^ (bitLength n / 2 + 1))

/-- Correctly rounded `std::sqrt`. -/
def sqrt : F64 → F64
  | nan => nan
  | inf s => if s then nan else inf false
  | fin s m e =>
    if m = 0 then fin s 0 (-1074)
    else if s then nan
    else
      let k : Nat := if e % 2 = 0 then 128 else 129
      let M := m * 2 ^ k
      let r := isqrt M
      round false r ((e - k) / 2) (r * r != M)

/-- The comparison `<` of doubles (false whenever an operand is NaN). -/
def lt : F64 → F64 → Bool
  | nan, _ => false
  | _, nan => false
  | inf s, inf t => s && !t
  | inf s, fin _ _ _ => s
  | fin _ _ _, inf t => !t
  | fin s m e, fin t n f =>
    let g := if m = 0 then f else if n = 0 then e else min e f
    decide (signed s (m * 2 ^ (e - g).toNat) < signed t (n * 2 ^ (f - g).toNat))

/-- The comparison `<=` of doubles (false whenever an operand is NaN). -/
def le : F64 → F64 → Bool
  | nan, _ => false
  | _, nan => false
  | inf s, inf t => s || !t
  | inf s, fin _ _ _ => s
  | fin _ _ _, inf t => !t
  | fin s m e, fin t n f =>
    let g := if m = 0 then f else if n = 0 then e else min e f
    decide (signed s (m * 2 ^ (e - g).toNat) ≤ signed t (n * 2 ^ (f - g).toNat))

/-- A double is finite when it is neither an infinity nor NaN. -/
def isFinite : F64 → Bool
  | fin _ _ _ => true
  | _ => false

instance : Add F64 := ⟨add⟩
instance : Sub F64 := ⟨sub⟩
instance : Mul F64 := ⟨mul⟩
instance : Div F64 := ⟨div⟩
instance : Neg F64 := ⟨neg⟩
instance : LT F64 := ⟨fun x y => lt x y = true⟩
instance : LE F64 := ⟨fun x y => le x y = true⟩
instance : DecidableRel (α := F64) (· < ·) :=
  fun x y => inferInstanceAs (Decidable (lt x y = true))
instance : DecidableRel (α := F64) (· ≤ ·) :=
  fun x y => inferInstanceAs (Decidable (le x y = true))
/-- A decimal literal denotes the nearest double. -/
instance : OfScientific F64 :=
  ⟨fun m s e => if s then ofRatio false m (10 ^ e) 0 else round false (m * 10 ^ e) 0 false⟩
instance (n : Nat) : OfNat F64 n := ⟨round false n 0 false⟩

end F64

end GravitySim

namespace GravitySim

variable {α : Type} [LinearOrderedField α]

/-! ## Helper lemmas -/

theorem half_eq (α : Type) [LinearOrderedField α] : (0.5 : α) = 1 / 2 := by norm_num

theorem accel_eq_scale (sqrt : α → α) (r : Vec2 α) (mu : α) :
    accel sqrt r mu = scale r (-mu / accelDivisor sqrt r) := rfl

theorem norm_nonneg (a : Vec2 ℝ) : 0 ≤ norm Real.sqrt a := Real.sqrt_nonneg _

theorem dot_self_nonneg (a : Vec2 ℝ) : 0 ≤ dot a a := by
  exact add_nonneg (mul_self_nonneg _) (mul_self_nonneg _)

theorem norm_sq (a : Vec2 ℝ) : norm Real.sqrt a ^ 2 = dot a a :=
  Real.sq_sqrt (dot_self_nonneg a)

theorem norm_scale (a : Vec2 ℝ) (k : ℝ) :
    norm Real.sqrt (scale a k) = |k| * norm Real.sqrt a := by
  have h : dot (scale a k) (scale a k) = k ^ 2 * dot a a := by
    simp only [dot, scale]; ring
  unfold norm
  rw [h, Real.sqrt_mul (sq_nonneg k), Real.sqrt_sq_eq_abs]

theorem accelDivisor_of_ge (r : Vec2 ℝ) (h : 1e-9 ≤ norm Real.sqrt r) :
    accelDivisor Real.sqrt r = norm Real.sqrt r ^ 3 := by
  unfold accelDivisor
  simp only [not_lt.mpr h, if_false]
  ring

theorem accelDivisor_of_lt (r : Vec2 ℝ) (h : norm Real.sqrt r < 1e-9) :
    accelDivisor Real.sqrt r = (1e-9) ^ 3 := by
  unfold accelDivisor
  simp only [h, if_true]
  ring

theorem accel_of_ge (r : Vec2 ℝ) (mu : ℝ) (hr : 1e-9 ≤ norm Real.sqrt r) :
    accel Real.sqrt r mu = scale r (-mu / norm Real.sqrt r ^ 3) := by
  rw [accel_eq_scale, accelDivisor_of_ge r hr]

theorem norm_accel_of_ge (r : Vec2 ℝ) (mu : ℝ) (hmu : 0 < mu)
    (hr : 1e-9 ≤ norm Real.sqrt r) :
    norm Real.sqrt (accel Real.sqrt r mu) = mu / norm Real.sqrt r ^ 2 := by
  have hp : 0 < norm Real.sqrt r := lt_of_lt_of_le (by norm_num) hr
  have hk : -mu / norm Real.sqrt r ^ 3 < 0 :=
    div_neg_of_neg_of_pos (by linarith) (pow_pos hp 3)
  rw [accel_of_ge r mu hr, norm_scale, abs_of_neg hk]
  field_simp
  ring

theorem norm_of_dot_self (r : Vec2 ℝ) (p : ℝ) (hp : 0 ≤ p) (h : dot r r = p ^ 2) :
    norm Real.sqrt r = p := by
  unfold norm
  rw [h, Real.sqrt_sq hp]

/-! ## Facts about binary64 arithmetic -/

theorem f64_add_comm (x y : F64) : x + y = y + x := by
  show F64.add x y = F64.add y x
  cases x with
  | nan => cases y <;> rfl
  | inf s =>
    cases y with
    | nan => rfl
    | inf t => cases s <;> cases t <;> rfl
    | fin t n f => rfl
  | fin s m e =>
    cases y with
    | nan => rfl
    | inf t => rfl
    | fin t n f =>
      simp only [F64.add]
      by_cases hm : m = 0 <;> by_cases hn : n = 0
      · simp [hm, hn, Bool.and_comm]
      · simp [hm, hn]
      · simp [hm, hn]
      · simp only [hm, hn, false_and, and_false, if_false]
        rw [min_comm f e, Int.add_comm (F64.signed t _)]

theorem f64_mul_comm (x y : F64) : x * y = y * x := by
  show F64.mul x y = F64.mul y x
  cases x with
  | nan => cases y <;> rfl
  | inf s =>
    cases y with
    | nan => rfl
    | inf t => simp only [F64.mul, Bool.xor_comm]
    | fin t n f => simp only [F64.mul, Bool.xor_comm]
  | fin s m e =>
    cases y with
    | nan => rfl
    | inf t => simp only [F64.mul, Bool.xor_comm]
    | fin t n f =>
      simp only [F64.mul]
      rw [Bool.xor_comm, Nat.mul_comm, Int.add_comm]

theorem f64_round_sign (M : Nat) (E : Int) (st : Bool) :
    F64.round false M E st = F64.inf false ∨
      ∃ m e, F64.round false M E st = F64.fin false m e := by
  unfold F64.round F64.pack
  simp only
  split_ifs <;> simp

theorem f64_sqrt_not_neg (x : F64) : ¬ F64.sqrt x < 0 := by
  show ¬ F64.lt (F64.sqrt x) (F64.round false 0 0 false) = true
  have h0 : F64.round false 0 0 false = F64.fin false 0 (-1074) := by decide
  rw [h0]
  cases x with
  | nan => simp [F64.sqrt, F64.lt]
  | inf s => cases s <;> simp [F64.sqrt, F64.lt]
  | fin s m e =>
    by_cases h1 : m = 0
    · simp [F64.sqrt, h1, F64.lt, F64.signed]
    · by_cases h2 : s = true
      · simp [F64.sqrt, h1, h2, F64.lt]
      · simp only [F64.sqrt, h1, h2, if_false]
        rcases f64_round_sign (F64.isqrt (m * 2 ^ (if e % 2 = 0 then 128 else 129)))
          ((e - ((if e % 2 = 0 then 128 else 129 : Nat) : Int)) / 2)
          (F64.isqrt (m * 2 ^ (if e % 2 = 0 then 128 else 129))
            * F64.isqrt (m * 2 ^ (if e % 2 = 0 then 128 else 129))
            != m * 2 ^ (if e % 2 = 0 then 128 else 129)) with h | ⟨m', e', h⟩
        · rw [h]; simp [F64.lt]
        · rw [h]
          simp only [F64.lt, F64.signed]
          simp

/-! ## Claims -/

/-- C1: `verlet(r, v, a, dt, mu)` replaces the state by `(r', v', a')` with
`r' = r + v*dt + a*0.5*dt^2`, `a' = accel(r', mu)` and `v' = v + (a + a')*0.5*dt`
(component by component); the stored acceleration is `accel` of the stored position
whatever acceleration was passed in. -/
theorem C1_verlet_update (sqrt : α → α) (r v a : Vec2 α) (dt mu : α) :
    (verlet sqrt r v a dt mu).1.x = r.x + v.x * dt + a.x * 0.5 * dt ^ 2 ∧
    (verlet sqrt r v a dt mu).1.y = r.y + v.y * dt + a.y * 0.5 * dt ^ 2 ∧
    (verlet sqrt r v a dt mu).2.2 = accel sqrt (verlet sqrt r v a dt mu).1 mu ∧
    (verlet sqrt r v a dt mu).2.1.x
      = v.x + (a.x + (verlet sqrt r v a dt mu).2.2.x) * 0.5 * dt ∧
    (verlet sqrt r v a dt mu).2.1.y
      = v.y + (a.y + (verlet sqrt r v a dt mu).2.2.y) * 0.5 * dt := by
  refine ⟨?_, ?_, rfl, ?_, ?_⟩ <;> simp only [verlet, add, scale] <;> ring

/-- C8 (as stated) fails for the doubles: with `a = (0.1, 0)`, `k1 = 0.2`, `k2 = 0.3`
the two sides of the `scale` law differ in the last place
(`0.006000000000000001` against `0.006`). -/
theorem C8_counterexample :
    scale (scale (⟨0.1, 0⟩ : Vec2 F64) 0.2) 0.3 ≠ scale ⟨0.1, 0⟩ (0.2 * 0.3) ∧
    (scale (⟨0.1, 0⟩ : Vec2 F64) (0.2 * 0.3)).x
      < (scale (scale (⟨0.1, 0⟩ : Vec2 F64) 0.2) 0.3).x := by
  decide

/-- C8 (amended): `add(a,b) = add(b,a)` and `dot(a,b) = dot(b,a)` hold in exact
arithmetic and also for the doubles the code computes; `scale(scale(a,k1),k2) =
scale(a,k1*k2)` holds in exact arithmetic. -/
theorem C8_vector_laws (a b : Vec2 α) (k1 k2 : α) :
    (add a b = add b a ∧ dot a b = dot b a ∧
      scale (scale a k1) k2 = scale a (k1 * k2)) ∧
    ∀ c d : Vec2 F64, add c d = add d c ∧ dot c d = dot d c := by
  refine ⟨⟨?_, ?_, ?_⟩, fun c d => ⟨?_, ?_⟩⟩
  · simp only [add, add_comm]
  · simp only [dot, mul_comm]
  · simp only [scale, mul_assoc]
  · simp only [add, f64_add_comm c.x, f64_add_comm c.y]
  · simp only [dot, f64_mul_comm c.x, f64_mul_comm c.y]

theorem angmom_verlet (sqrt : α → α) (r v : Vec2 α) (dt mu : α) :
    angmom (verlet sqrt r v (accel sqrt r mu) dt mu).1
      (verlet sqrt r v (accel sqrt r mu) dt mu).2.1 = angmom r v := by
  simp only [verlet, accel_eq_scale, angmom, add, scale]
  ring

theorem verletN_stored_accel (sqrt : α → α) (r v : Vec2 α) (dt mu : α) (n : ℕ) :
    (verletN sqrt dt mu n (r, v, accel sqrt r mu)).2.2
      = accel sqrt (verletN sqrt dt mu n (r, v, accel sqrt r mu)).1 mu := by
  cases n with
  | zero => rfl
  | succ n => rfl

theorem angmom_verletN (sqrt : α → α) (r v : Vec2 α) (dt mu : α) (n : ℕ) :
    angmom (verletN sqrt dt mu n (r, v, accel sqrt r mu)).1
      (verletN sqrt dt mu n (r, v, accel sqrt r mu)).2.1 = angmom r v := by
  induction n with
  | zero => rfl
  | succ n ih =>
    have h := verletN_stored_accel sqrt r v dt mu n
    show angmom (verlet sqrt _ _ _ dt mu).1 (verlet sqrt _ _ _ dt mu).2.1 = angmom r v
    rw [h, angmom_verlet, ih]

theorem forwardBackward_pos (sqrt : α → α) (r v a : Vec2 α) (dt mu : α) :
    (forwardBackward sqrt r v a dt mu).1 = r := by
  cases r with
  | mk rx ry =>
    simp only [forwardBackward, verlet, add, scale, Vec2.mk.injEq]
    constructor <;> ring

/-- C3: with the stored acceleration equal to `accel(r, mu)`, one `verlet` call
leaves `L = r.x*v.y - r.y*v.x` unchanged, hence so does any number `n` of calls; in
the run from `mu=1, r0=(1,0), v0=(0,1), dt=1e-3` the drift `|L(t) - L(0)|` is below
`1e-6` after every step. -/
theorem C3_angular_momentum_conserved (sqrt : α → α) (r v : Vec2 α) (dt mu : α) (n : ℕ) :
    angmom (verlet sqrt r v (accel sqrt r mu) dt mu).1
      (verlet sqrt r v (accel sqrt r mu) dt mu).2.1 = angmom r v ∧
    angmom (verletN sqrt dt mu n (r, v, accel sqrt r mu)).1
      (verletN sqrt dt mu n (r, v, accel sqrt r mu)).2.1 = angmom r v ∧
    |angmom (verletN Real.sqrt 1e-3 1 n (⟨1, 0⟩, ⟨0, 1⟩, accel Real.sqrt ⟨1, 0⟩ 1)).1
        (verletN Real.sqrt 1e-3 1 n (⟨1, 0⟩, ⟨0, 1⟩, accel Real.sqrt ⟨1, 0⟩ 1)).2.1
      - angmom (⟨1, 0⟩ : Vec2 ℝ) ⟨0, 1⟩| < 1e-6 := by
  refine ⟨angmom_verlet sqrt r v dt mu, angmom_verletN sqrt r v dt mu n, ?_⟩
  rw [angmom_verletN, sub_self, abs_zero]
  norm_num

theorem configure_mu (sqrt : α → α) (extract : String → Option α)
    (extractPair : String → Option (α × α)) (muLine r0Line v0Line : String) :
    (configure sqrt extract extractPair muLine r0Line v0Line).mu
      = read_or_keep extract muLine 1 := by
  simp only [configure]
  norm_num

/-- C9 (as stated) fails: the line `-1` at the mu prompt is accepted as it is. -/
theorem C9_counterexample :
    (configure Real.sqrt extractMinusOne (fun _ => none) "-1" "" "").mu = -1 ∧
    ¬ 0 < (configure Real.sqrt extractMinusOne (fun _ => none) "-1" "" "").mu := by
  have h : (configure Real.sqrt extractMinusOne (fun _ => none) "-1" "" "").mu = -1 := by
    rw [configure_mu]
    simp [read_or_keep, extractMinusOne, String.isEmpty]
    decide
  rw [h]
  exact ⟨rfl, by norm_num⟩

theorem configure_r0 (sqrt : α → α) (extract : String → Option α)
    (extractPair : String → Option (α × α)) (muLine r0Line v0Line : String) (x y : α)
    (hline : r0Line.isEmpty = false) (hparse : extractPair r0Line = some (x, y)) :
    ((configure sqrt extract extractPair muLine r0Line v0Line).r0x,
      (configure sqrt extract extractPair muLine r0Line v0Line).r0y)
      = if sqrt (x * x + y * y) < 1e-6 then (1, 0) else (x, y) := by
  simp only [configure, read_pair_or_keep, hline, hparse, Bool.not_false, if_true]
  split_ifs <;> norm_num

/-- C9 (amended): the `mu` that `main` passes to `accel` and `verlet` is the value
`read_or_keep` leaves: the default `1.0` when the line is empty or `iss >> tmp`
extracts nothing, otherwise the number `iss >> tmp` extracted, as it is, with no range
check or clamp (so it is positive exactly when the extracted number is); the initial
acceleration, every reset and every sub-step use that same value. -/
theorem C9_mu_as_entered (sqrt : α → α) (extract : String → Option α)
    (extractPair : String → Option (α × α)) (muLine r0Line v0Line : String) :
    (muLine.isEmpty = true →
      (configure sqrt extract extractPair muLine r0Line v0Line).mu = 1) ∧
    (extract muLine = none →
      (configure sqrt extract extractPair muLine r0Line v0Line).mu = 1) ∧
    (∀ t : α, muLine.isEmpty = false → extract muLine = some t →
      (configure sqrt extract extractPair muLine r0Line v0Line).mu = t ∧
      (0 < (configure sqrt extract extractPair muLine r0Line v0Line).mu ↔ 0 < t)) ∧
    (∀ cfg : Config α, (initSim sqrt cfg).a = accel sqrt (initSim sqrt cfg).r cfg.mu ∧
      (∀ s : Sim α, (handleEvent sqrt cfg s Event.keyR).a
        = accel sqrt (handleEvent sqrt cfg s Event.keyR).r cfg.mu) ∧
      (∀ (s : Sim α) (dt : α) (k : ℕ),
        ((subSteps sqrt cfg dt (k + 1) s).r, (subSteps sqrt cfg dt (k + 1) s).v,
          (subSteps sqrt cfg dt (k + 1) s).a)
        = verlet sqrt (subSteps sqrt cfg dt k s).r (subSteps sqrt cfg dt k s).v
            (subSteps sqrt cfg dt k s).a dt cfg.mu)) := by
  refine ⟨?_, ?_, ?_, ?_⟩
  · intro h
    rw [configure_mu]; simp [read_or_keep, h]
  · intro h
    rw [configure_mu]; simp [read_or_keep, h]
  · intro t h1 h2
    have h : (configure sqrt extract extractPair muLine r0Line v0Line).mu = t := by
      rw [configure_mu]; simp [read_or_keep, h1, h2]
    rw [h]
    exact ⟨rfl, Iff.rfl⟩
  · intro cfg
    exact ⟨rfl, fun _ => rfl, fun _ _ _ => rfl⟩

theorem C9_mu_as_entered_witness :
    ("-1" : String).isEmpty = false ∧ extractMinusOne "-1" = some (-1) ∧
    (configure Real.sqrt extractMinusOne extractZeroPair "-1" "0 0" "").mu = -1 ∧
    (0 < (configure Real.sqrt extractMinusOne extractZeroPair "-1" "0 0" "").mu
      ↔ (0 : ℝ) < -1) :=
  ⟨by decide, by simp [extractMinusOne],
    (C9_mu_as_entered Real.sqrt extractMinusOne extractZeroPair "-1" "0 0" "").2.2.1 (-1)
      (by decide) (by simp [extractMinusOne])⟩

/-- C10: an entered initial position of magnitude below `1e-6` is replaced by
`(1, 0)` before `accel` is first called, so the initial state and every reset start
from `(1, 0)`; an entered position of magnitude at least `1e-6` is used unchanged. -/
theorem C10_degenerate_r0_defaulted (sqrt : α → α) (extract : String → Option α)
    (extractPair : String → Option (α × α)) (muLine r0Line v0Line : String) (x y : α)
    (hline : r0Line.isEmpty = false) (hparse : extractPair r0Line = some (x, y)) :
    (sqrt (x * x + y * y) < 1e-6 →
      (initSim sqrt (configure sqrt extract extractPair muLine r0Line v0Line)).r = ⟨1, 0⟩ ∧
      (initSim sqrt (configure sqrt extract extractPair muLine r0Line v0Line)).a
        = accel sqrt ⟨1, 0⟩ (configure sqrt extract extractPair muLine r0Line v0Line).mu ∧
      ∀ s : Sim α,
        (handleEvent sqrt (configure sqrt extract extractPair muLine r0Line v0Line) s
          Event.keyR).r = ⟨1, 0⟩ ∧
        (handleEvent sqrt (configure sqrt extract extractPair muLine r0Line v0Line) s
          Event.keyR).a
          = accel sqrt ⟨1, 0⟩ (configure sqrt extract extractPair muLine r0Line v0Line).mu) ∧
    (1e-6 ≤ sqrt (x * x + y * y) →
      (initSim sqrt (configure sqrt extract extractPair muLine r0Line v0Line)).r = ⟨x, y⟩ ∧
      (initSim sqrt (configure sqrt extract extractPair muLine r0Line v0Line)).a
        = accel sqrt ⟨x, y⟩ (configure sqrt extract extractPair muLine r0Line v0Line).mu ∧
      ∀ s : Sim α,
        (handleEvent sqrt (configure sqrt extract extractPair muLine r0Line v0Line) s
          Event.keyR).r = ⟨x, y⟩ ∧
        (handleEvent sqrt (configure sqrt extract extractPair muLine r0Line v0Line) s
          Event.keyR).a
          = accel sqrt ⟨x, y⟩ (configure sqrt extract extractPair muLine r0Line v0Line).mu) := by
  have h := configure_r0 sqrt extract extractPair muLine r0Line v0Line x y hline hparse
  constructor
  · intro hlt
    rw [if_pos hlt, Prod.mk.injEq] at h
    have hr : (initSim sqrt (configure sqrt extract extractPair muLine r0Line v0Line)).r
        = ⟨1, 0⟩ := by
      simp only [initSim, h.1, h.2]
    refine ⟨hr, ?_, fun s => ⟨?_, ?_⟩⟩
    · simp only [initSim, h.1, h.2]
    · simp only [handleEvent, h.1, h.2]
    · simp only [handleEvent, h.1, h.2]
  · intro hge
    rw [if_neg (not_lt.mpr hge), Prod.mk.injEq] at h
    refine ⟨?_, ?_, fun s => ⟨?_, ?_⟩⟩
    · simp only [initSim, h.1, h.2]
    · simp only [initSim, h.1, h.2]
    · simp only [handleEvent, h.1, h.2]
    · simp only [handleEvent, h.1, h.2]

theorem C10_degenerate_r0_defaulted_witness :
    ("0 0" : String).isEmpty = false ∧ extractZeroPair "0 0" = some (0, 0) ∧
    (initSim Real.sqrt (configure Real.sqrt (fun _ => none) extractZeroPair "" "0 0" "")).r
      = ⟨1, 0⟩ :=
  ⟨by decide, by simp [extractZeroPair],
    ((C10_degenerate_r0_defaulted Real.sqrt (fun _ => none) extractZeroPair "" "0 0" "" 0 0
      (by decide) (by simp [extractZeroPair])).1 (by norm_num)).1⟩

theorem lagrange (a b : Vec2 α) :
    dot a a * dot b b = dot a b ^ 2 + angmom a b ^ 2 := by
  simp only [dot, angmom]; ring

theorem step_dot (sqrt : α → α) (r v : Vec2 α) (k dt mu : α) :
    dot r (verlet sqrt r v (scale r k) dt mu).1
      = dot r r * (1 + dt ^ 2 / 2 * k) + dt * dot r v := by
  simp only [verlet, add, scale, dot]
  norm_num
  ring

theorem step_cross (sqrt : α → α) (r v : Vec2 α) (k dt mu : α) :
    angmom r (verlet sqrt r v (scale r k) dt mu).1 = dt * angmom r v := by
  simp only [verlet, add, scale, angmom]
  ring

theorem shadow_step (sqrt : α → α) (r v a : Vec2 α) (dt mu : α) :
    (1 / 2 * dot (verlet sqrt r v a dt mu).2.1 (verlet sqrt r v a dt mu).2.1
        - dt ^ 2 / 8 * dot (verlet sqrt r v a dt mu).2.2 (verlet sqrt r v a dt mu).2.2)
      - (1 / 2 * dot v v - dt ^ 2 / 8 * dot a a)
      = 1 / 2 * dot (add a (verlet sqrt r v a dt mu).2.2)
          (sub (verlet sqrt r v a dt mu).1 r) := by
  simp only [verlet]
  generalize accel sqrt _ mu = a'
  simp only [add, scale, sub, dot]
  norm_num
  ring

/-! ## Scalar estimates near the unit circle -/

theorem abs_mul_le_mul {a b A B : ℝ} (ha : |a| ≤ A) (hb : |b| ≤ B) : |a * b| ≤ A * B := by
  rw [abs_mul]
  exact mul_le_mul ha hb (abs_nonneg _) (le_trans (abs_nonneg _) ha)

theorem sq_le_of_abs_le {a A : ℝ} (ha : |a| ≤ A) : a ^ 2 ≤ A ^ 2 := by
  have h := abs_mul_le_mul ha ha
  rw [abs_of_nonneg (mul_self_nonneg a)] at h
  rw [pow_two, pow_two]; exact h

theorem trapezoid_identity (p q c : ℝ) (hp : 0 < p) (hq : 0 < q) :
    1 / p - 1 / q - (c - p ^ 2) / (2 * p ^ 3) - (q ^ 2 - c) / (2 * q ^ 3)
      = (q - p) * ((p ^ 2 + q ^ 2 - 2 * c) * (p ^ 2 + p * q + q ^ 2)
          - (q - p) ^ 2 * (p ^ 2 + 3 * p * q + q ^ 2)) / (4 * p ^ 3 * q ^ 3) := by
  field_simp
  ring

theorem recip_bounds (p : ℝ) (hp1 : 9998 / 10000 ≤ p) (hp2 : p ≤ 10002 / 10000) :
    9998 / 10000 ≤ 1 / p ∧ 1 / p ≤ 10003 / 10000 := by
  have hp : 0 < p := by linarith
  constructor
  · rw [le_div_iff₀ hp]; linarith
  · rw [div_le_iff₀ hp]; linarith

theorem c_bounds (p η c : ℝ) (hp1 : 9998 / 10000 ≤ p) (hp2 : p ≤ 10002 / 10000)
    (hη1 : -(1 / 1000) ≤ η) (hη2 : η ≤ 1 / 1000) (hc : c = p ^ 2 + 1 / 1000 * η) :
    9995 / 10000 ≤ c ∧ c ≤ 10005 / 10000 := by
  have h1 : (9998 / 10000) ^ 2 ≤ p ^ 2 := pow_le_pow_left₀ (by norm_num) hp1 2
  have h2 : p ^ 2 ≤ (10002 / 10000) ^ 2 := pow_le_pow_left₀ (by linarith) hp2 2
  rw [hc]
  constructor <;> linarith

theorem sq_diff_identity (p u q c w η : ℝ) (hpu : p * u = 1)
    (hq : q ^ 2 * p ^ 2 = c ^ 2 + (1 / 1000) ^ 2) (hc : c = p ^ 2 + 1 / 1000 * η)
    (hη : η = w - 1 / 2000 * u) :
    q ^ 2 - p ^ 2
      = 2 / 1000 * w + (1 / 1000) ^ 2 * u * (u - 1) + (1 / 1000) ^ 2 * η ^ 2 * u ^ 2 := by
  have h1 : p ^ 2 * u ^ 2 = 1 := by rw [← mul_pow, hpu, one_pow]
  have hqsq : q ^ 2 = (c ^ 2 + (1 / 1000) ^ 2) * u ^ 2 := by
    have : q ^ 2 = q ^ 2 * p ^ 2 * u ^ 2 := by rw [mul_assoc, h1, mul_one]
    rw [this, hq]
  have hw' : w = η + 1 / 2000 * u := by rw [hη]; ring
  rw [hqsq, hc, hw']
  linear_combination (p ^ 2 + 2 / 1000 * η) * h1

theorem sq_diff_bound (u w η : ℝ) (hu1 : 9998 / 10000 ≤ u) (hu2 : u ≤ 10003 / 10000)
    (hw : |w| ≤ 1 / 5000) (hη : |η| ≤ 1 / 1000) :
    |2 / 1000 * w + (1 / 1000) ^ 2 * u * (u - 1) + (1 / 1000) ^ 2 * η ^ 2 * u ^ 2|
      ≤ 401 / 1000000000 := by
  have hu1' : |u - 1| ≤ 3 / 10000 := abs_le.mpr ⟨by linarith, by linarith⟩
  have hu0 : |u| ≤ 10003 / 10000 := abs_le.mpr ⟨by linarith, by linarith⟩
  have hc : |(1 / 1000 : ℝ) ^ 2| ≤ 1 / 1000000 := by
    rw [abs_of_pos (by norm_num)]; norm_num
  have ht1 : |2 / 1000 * w| ≤ 2 / 1000 * (1 / 5000) :=
    abs_mul_le_mul (by rw [abs_of_pos (by norm_num)]) hw
  have ht2 : |(1 / 1000) ^ 2 * u * (u - 1)| ≤ 1 / 1000000 * (10003 / 10000) * (3 / 10000) :=
    abs_mul_le_mul (abs_mul_le_mul hc hu0) hu1'
  have hηsq : |η ^ 2| ≤ (1 / 1000) ^ 2 := by
    rw [abs_of_nonneg (sq_nonneg η)]; exact sq_le_of_abs_le hη
  have husq : |u ^ 2| ≤ (10003 / 10000) ^ 2 := by
    rw [abs_of_nonneg (sq_nonneg u)]; exact sq_le_of_abs_le hu0
  have ht3 : |(1 / 1000) ^ 2 * η ^ 2 * u ^ 2|
      ≤ 1 / 1000000 * (1 / 1000) ^ 2 * (10003 / 10000) ^ 2 :=
    abs_mul_le_mul (abs_mul_le_mul hc hηsq) husq
  calc |2 / 1000 * w + (1 / 1000) ^ 2 * u * (u - 1) + (1 / 1000) ^ 2 * η ^ 2 * u ^ 2|
      ≤ |2 / 1000 * w + (1 / 1000) ^ 2 * u * (u - 1)| + |(1 / 1000) ^ 2 * η ^ 2 * u ^ 2| :=
        abs_add _ _
    _ ≤ |2 / 1000 * w| + |(1 / 1000) ^ 2 * u * (u - 1)|
          + |(1 / 1000) ^ 2 * η ^ 2 * u ^ 2| := by gcongr; exact abs_add _ _
    _ ≤ 2 / 1000 * (1 / 5000) + 1 / 1000000 * (10003 / 10000) * (3 / 10000)
          + 1 / 1000000 * (1 / 1000) ^ 2 * (10003 / 10000) ^ 2 := by gcongr
    _ ≤ 401 / 1000000000 := by norm_num

theorem radius_close (p q : ℝ) (hp1 : 9998 / 10000 ≤ p) (hq0 : 0 ≤ q)
    (h : |q ^ 2 - p ^ 2| ≤ 401 / 1000000000) : |q - p| ≤ 1 / 2000000 := by
  have hfac : q ^ 2 - p ^ 2 = (q - p) * (q + p) := by ring
  rw [hfac, abs_mul] at h
  have hs : 9998 / 10000 ≤ |q + p| := by
    rw [abs_of_nonneg (by linarith)]; linarith
  have h2 : |q - p| * (9998 / 10000) ≤ 401 / 1000000000 :=
    le_trans (mul_le_mul_of_nonneg_left hs (abs_nonneg _)) h
  linarith

theorem disp_sq_bound (u η : ℝ) (hu1 : 9998 / 10000 ≤ u) (hu2 : u ≤ 10003 / 10000)
    (hη : |η| ≤ 1 / 1000) :
    0 ≤ (1 / 1000) ^ 2 * (1 + η ^ 2) * u ^ 2 ∧
    (1 / 1000) ^ 2 * (1 + η ^ 2) * u ^ 2 ≤ 1001 / 1000000000 := by
  have hηsq : η ^ 2 ≤ (1 / 1000) ^ 2 := sq_le_of_abs_le hη
  have husq : u ^ 2 ≤ (10003 / 10000) ^ 2 := pow_le_pow_left₀ (by linarith) hu2 2
  refine ⟨by positivity, ?_⟩
  calc (1 / 1000) ^ 2 * (1 + η ^ 2) * u ^ 2
      ≤ (1 / 1000) ^ 2 * (1 + (1 / 1000) ^ 2) * (10003 / 10000) ^ 2 := by gcongr
    _ ≤ 1001 / 1000000000 := by norm_num

theorem trapezoid_bound (p q c : ℝ) (hp1 : 9997 / 10000 ≤ p) (hp2 : p ≤ 10003 / 10000)
    (hq1 : 9997 / 10000 ≤ q) (hq2 : q ≤ 10003 / 10000) (hqp : |q - p| ≤ 1 / 2000000)
    (hd0 : 0 ≤ p ^ 2 + q ^ 2 - 2 * c) (hd1 : p ^ 2 + q ^ 2 - 2 * c ≤ 1001 / 1000000000) :
    |1 / p - 1 / q - (c - p ^ 2) / (2 * p ^ 3) - (q ^ 2 - c) / (2 * q ^ 3)|
      ≤ 1 / 1000000000000 := by
  have hppos : 0 < p := by linarith
  have hqpos : 0 < q := by linarith
  have hpp : p ^ 2 ≤ (10003 / 10000) ^ 2 := pow_le_pow_left₀ hppos.le hp2 2
  have hqq : q ^ 2 ≤ (10003 / 10000) ^ 2 := pow_le_pow_left₀ hqpos.le hq2 2
  have hpq : p * q ≤ 10003 / 10000 * (10003 / 10000) :=
    mul_le_mul hp2 hq2 hqpos.le (by norm_num)
  have hS1a : 0 ≤ p ^ 2 + p * q + q ^ 2 := by positivity
  have hS1b : p ^ 2 + p * q + q ^ 2 ≤ 3002 / 1000 := by linarith
  have hS2a : 0 ≤ p ^ 2 + 3 * p * q + q ^ 2 := by positivity
  have hS2b : p ^ 2 + 3 * p * q + q ^ 2 ≤ 5004 / 1000 := by linarith
  have hX0 : 0 ≤ (p ^ 2 + q ^ 2 - 2 * c) * (p ^ 2 + p * q + q ^ 2) :=
    mul_nonneg hd0 hS1a
  have hX1 : (p ^ 2 + q ^ 2 - 2 * c) * (p ^ 2 + p * q + q ^ 2)
      ≤ 1001 / 1000000000 * (3002 / 1000) :=
    mul_le_mul hd1 hS1b hS1a (by norm_num)
  have hqpsq : (q - p) ^ 2 ≤ (1 / 2000000) ^ 2 := sq_le_of_abs_le hqp
  have hY0 : 0 ≤ (q - p) ^ 2 * (p ^ 2 + 3 * p * q + q ^ 2) :=
    mul_nonneg (sq_nonneg _) hS2a
  have hY1 : (q - p) ^ 2 * (p ^ 2 + 3 * p * q + q ^ 2)
      ≤ (1 / 2000000) ^ 2 * (5004 / 1000) :=
    mul_le_mul hqpsq hS2b hS2a (by norm_num)
  have hXY : |(p ^ 2 + q ^ 2 - 2 * c) * (p ^ 2 + p * q + q ^ 2)
      - (q - p) ^ 2 * (p ^ 2 + 3 * p * q + q ^ 2)| ≤ 4 / 1000000 := by
    rw [abs_le]
    constructor
    · have : (1 / 2000000 : ℝ) ^ 2 * (5004 / 1000) ≤ 4 / 1000000 := by norm_num
      linarith
    · have : (1001 / 1000000000 : ℝ) * (3002 / 1000) ≤ 4 / 1000000 := by norm_num
      linarith
  have hp3 : (9997 / 10000) ^ 3 ≤ p ^ 3 := pow_le_pow_left₀ (by norm_num) hp1 3
  have hq3 : (9997 / 10000) ^ 3 ≤ q ^ 3 := pow_le_pow_left₀ (by norm_num) hq1 3
  have hp3q3 : (9997 / 10000) ^ 3 * (9997 / 10000) ^ 3 ≤ p ^ 3 * q ^ 3 :=
    mul_le_mul hp3 hq3 (by norm_num) (by positivity)
  have hnum := abs_mul_le_mul hqp hXY
  rw [trapezoid_identity p q c hppos hqpos, abs_div,
    abs_of_pos (show (0 : ℝ) < 4 * p ^ 3 * q ^ 3 by positivity), div_le_iff₀ (by positivity)]
  have h998 : (998 / 1000 : ℝ) ≤ (9997 / 10000) ^ 3 * (9997 / 10000) ^ 3 := by norm_num
  calc |(q - p) * ((p ^ 2 + q ^ 2 - 2 * c) * (p ^ 2 + p * q + q ^ 2)
          - (q - p) ^ 2 * (p ^ 2 + 3 * p * q + q ^ 2))|
      ≤ 1 / 2000000 * (4 / 1000000) := hnum
    _ ≤ 1 / 1000000000000 * (4 * (998 / 1000)) := by norm_num
    _ ≤ 1 / 1000000000000 * (4 * p ^ 3 * q ^ 3) := by
        have h4 : 4 * (998 / 1000 : ℝ) ≤ 4 * p ^ 3 * q ^ 3 := by
          rw [mul_assoc]; linarith [le_trans h998 hp3q3]
        exact mul_le_mul_of_nonneg_left h4 (by norm_num)

/-- Scalar content of one step near the unit circle: `p` is the radius before the step,
`w` the radial product `r·v`, `c = r·r'` and `q` the radius after the step. -/
theorem radius_step (p q c w : ℝ) (hp : |p - 1| ≤ 1 / 5000) (hw : |w| ≤ 1 / 5000)
    (hc : c = p ^ 2 + 1 / 1000 * w - (1 / 1000) ^ 2 / (2 * p)) (hq0 : 0 ≤ q)
    (hq : q ^ 2 * p ^ 2 = c ^ 2 + (1 / 1000) ^ 2) :
    |q - p| ≤ 1 / 2000000 ∧ 9995 / 10000 ≤ c ∧ c ≤ 10005 / 10000 ∧
    |1 / p - 1 / q - (c - p ^ 2) / (2 * p ^ 3) - (q ^ 2 - c) / (2 * q ^ 3)|
      ≤ 1 / 1000000000000 := by
  obtain ⟨hp1, hp2⟩ := abs_le.mp hp
  obtain ⟨hw1, hw2⟩ := abs_le.mp hw
  have hp1' : 9998 / 10000 ≤ p := by linarith
  have hp2' : p ≤ 10002 / 10000 := by linarith
  have hppos : 0 < p := by linarith
  obtain ⟨hu1, hu2⟩ := recip_bounds p hp1' hp2'
  have hpu : p * (1 / p) = 1 := by field_simp
  have hη : |w - 1 / 2000 * (1 / p)| ≤ 1 / 1000 := abs_le.mpr ⟨by linarith, by linarith⟩
  obtain ⟨hη1, hη2⟩ := abs_le.mp hη
  have hcη : c = p ^ 2 + 1 / 1000 * (w - 1 / 2000 * (1 / p)) := by
    rw [hc]; field_simp; ring
  obtain ⟨hc1, hc2⟩ := c_bounds p _ c hp1' hp2' hη1 hη2 hcη
  have hdiff := sq_diff_identity p (1 / p) q c w _ hpu hq hcη rfl
  have hdb := sq_diff_bound (1 / p) w _ hu1 hu2 hw hη
  rw [← hdiff] at hdb
  have hqp := radius_close p q hp1' hq0 hdb
  obtain ⟨hqp1, hqp2⟩ := abs_le.mp hqp
  have hdsq : p ^ 2 + q ^ 2 - 2 * c
      = (1 / 1000) ^ 2 * (1 + (w - 1 / 2000 * (1 / p)) ^ 2) * (1 / p) ^ 2 := by
    have : p ^ 2 + q ^ 2 - 2 * c = (q ^ 2 - p ^ 2) + 2 * p ^ 2 - 2 * c := by ring
    rw [this, hdiff]
    linear_combination (-2 : ℝ) * hcη
  obtain ⟨hd0, hd1⟩ := disp_sq_bound (1 / p) _ hu1 hu2 hη
  rw [← hdsq] at hd0 hd1
  exact ⟨hqp, hc1, hc2, trapezoid_bound p q c (by linarith) (by linarith) (by linarith)
    (by linarith) hqp hd0 hd1⟩

theorem closure_identity (q w : ℝ) (hq : 0 < q) :
    w ^ 2 + (q - 1) ^ 2
      = 2 * q ^ 2 * ((w ^ 2 + 1) / (2 * q ^ 2) - 1 / q - (1 / 1000) ^ 2 / 8 / q ^ 4
          - (-(1 / 2) - (1 / 1000) ^ 2 / 8))
        + (1 / 1000) ^ 2 / 4 * ((1 - q) * (1 + q) * (1 + q ^ 2) * (1 / q) ^ 2) := by
  field_simp
  ring

theorem closure_bounds (q w : ℝ) (hq : |q - 1| ≤ 2005 / 10000000)
    (hD : |(w ^ 2 + 1) / (2 * q ^ 2) - 1 / q - (1 / 1000) ^ 2 / 8 / q ^ 4
        - (-(1 / 2) - (1 / 1000) ^ 2 / 8)| ≤ 6283 / 1000000000000) :
    |q - 1| ≤ 1 / 5000 ∧ |w| ≤ 1 / 5000 := by
  obtain ⟨hq1, hq2⟩ := abs_le.mp hq
  have hqpos : 0 < q := by linarith
  have hu1 : 9997 / 10000 ≤ 1 / q := by rw [le_div_iff₀ hqpos]; linarith
  have hu2 : 1 / q ≤ 10004 / 10000 := by rw [div_le_iff₀ hqpos]; linarith
  have hqa : |q| ≤ 10003 / 10000 := abs_le.mpr ⟨by linarith, by linarith⟩
  have hqsq : |q ^ 2| ≤ (10003 / 10000) ^ 2 := by
    rw [abs_of_nonneg (sq_nonneg q)]; exact sq_le_of_abs_le hqa
  have h2 : |(2 : ℝ)| ≤ 2 := by rw [abs_of_pos (by norm_num)]
  have hA := abs_mul_le_mul (abs_mul_le_mul h2 hqsq) hD
  have h1q : |1 - q| ≤ 2005 / 10000000 := by rw [abs_sub_comm]; exact hq
  have h1q' : |1 + q| ≤ 20003 / 10000 := abs_le.mpr ⟨by linarith, by linarith⟩
  have h1qq : |1 + q ^ 2| ≤ 1 + (10003 / 10000) ^ 2 := by
    rw [abs_of_nonneg (by positivity)]
    have := (abs_le.mp hqsq).2
    linarith
  have hua : |1 / q| ≤ 10004 / 10000 := abs_le.mpr ⟨by linarith, by linarith⟩
  have husq : |(1 / q) ^ 2| ≤ (10004 / 10000) ^ 2 := by
    rw [abs_of_nonneg (sq_nonneg _)]; exact sq_le_of_abs_le hua
  have hc : |(1 / 1000 : ℝ) ^ 2 / 4| ≤ 1 / 4000000 := by
    rw [abs_of_pos (by norm_num)]; norm_num
  have hB := abs_mul_le_mul hc
    (abs_mul_le_mul (abs_mul_le_mul (abs_mul_le_mul h1q h1q') h1qq) husq)
  have hsum : w ^ 2 + (q - 1) ^ 2 ≤ (1 / 5000) ^ 2 := by
    rw [closure_identity q w hqpos]
    have hA' := (abs_le.mp hA).2
    have hB' := (abs_le.mp hB).2
    have hnum : (2 : ℝ) * (10003 / 10000) ^ 2 * (6283 / 1000000000000)
        + 1 / 4000000 * (2005 / 10000000 * (20003 / 10000) * (1 + (10003 / 10000) ^ 2)
          * (10004 / 10000) ^ 2) ≤ (1 / 5000) ^ 2 := by norm_num
    linarith
  constructor
  · exact abs_le_of_sq_le_sq (by linarith [sq_nonneg w]) (by norm_num)
  · exact abs_le_of_sq_le_sq (by linarith [sq_nonneg (q - 1)]) (by norm_num)

theorem arctan_pos_of_pos {x : ℝ} (hx : 0 < x) : 0 < Real.arctan x := by
  have h := Real.arctan_strictMono hx
  rwa [Real.arctan_zero] at h

theorem angle_advance (p q c θ x' y' : ℝ) (hp : 0 < p) (hq : 0 < q) (hc : 0 < c)
    (hqc : q ^ 2 * p ^ 2 = c ^ 2 + (1 / 1000) ^ 2)
    (hx : p * x' = c * Real.cos θ - 1 / 1000 * Real.sin θ)
    (hy : p * y' = 1 / 1000 * Real.cos θ + c * Real.sin θ) :
    ∃ φ : ℝ, x' = q * Real.cos (θ + φ) ∧ y' = q * Real.sin (θ + φ) ∧
      1 / 1000 / (p * q) < φ ∧ φ < 1 / 1000 / c := by
  have hroot : Real.sqrt (1 + (1 / 1000 / c) ^ 2) = q * p / c := by
    have : 1 + (1 / 1000 / c) ^ 2 = (q * p / c) ^ 2 := by
      rw [div_pow (q * p), mul_pow, hqc]
      field_simp
      ring
    rw [this, Real.sqrt_sq (by positivity)]
  have hcos : Real.cos (Real.arctan (1 / 1000 / c)) = c / (q * p) := by
    rw [Real.cos_arctan, hroot]; field_simp
  have hsin : Real.sin (Real.arctan (1 / 1000 / c)) = 1 / 1000 / (q * p) := by
    rw [Real.sin_arctan, hroot]; field_simp; ring
  have hpos : 0 < Real.arctan (1 / 1000 / c) := arctan_pos_of_pos (by positivity)
  refine ⟨Real.arctan (1 / 1000 / c), ?_, ?_, ?_, ?_⟩
  · have hx' : x' = (c * Real.cos θ - 1 / 1000 * Real.sin θ) / p := by
      rw [eq_div_iff hp.ne', mul_comm]; exact hx
    rw [Real.cos_add, hcos, hsin, hx']
    field_simp
    ring
  · have hy' : y' = (1 / 1000 * Real.cos θ + c * Real.sin θ) / p := by
      rw [eq_div_iff hp.ne', mul_comm]; exact hy
    rw [Real.sin_add, hcos, hsin, hy']
    field_simp
    ring
  · have := Real.sin_lt hpos
    rw [hsin, mul_comm q p] at this
    exact this
  · have := Real.lt_tan hpos (Real.arctan_lt_pi_div_two _)
    rwa [Real.tan_arctan] at this

/-! ## One step of the reference orbit -/

theorem polar_dot_self (p θ : ℝ) :
    dot (⟨p * Real.cos θ, p * Real.sin θ⟩ : Vec2 ℝ) ⟨p * Real.cos θ, p * Real.sin θ⟩
      = p ^ 2 := by
  simp only [dot]
  linear_combination p ^ 2 * Real.cos_sq_add_sin_sq θ

/-- Geometry of the position update when the stored acceleration is `-r/p^3`. -/
theorem step_geometry (r v : Vec2 ℝ) (p : ℝ) (hp : 0 < p) (hrr : dot r r = p ^ 2)
    (hL : angmom r v = 1) :
    dot r (verlet Real.sqrt r v (scale r (-1 / p ^ 3)) (1 / 1000) 1).1
      = p ^ 2 + 1 / 1000 * dot r v - (1 / 1000) ^ 2 / (2 * p) ∧
    angmom r (verlet Real.sqrt r v (scale r (-1 / p ^ 3)) (1 / 1000) 1).1 = 1 / 1000 ∧
    norm Real.sqrt (verlet Real.sqrt r v (scale r (-1 / p ^ 3)) (1 / 1000) 1).1 ^ 2 * p ^ 2
      = dot r (verlet Real.sqrt r v (scale r (-1 / p ^ 3)) (1 / 1000) 1).1 ^ 2
        + (1 / 1000) ^ 2 := by
  have h1 := step_dot Real.sqrt r v (-1 / p ^ 3) (1 / 1000) 1
  have h2 := step_cross Real.sqrt r v (-1 / p ^ 3) (1 / 1000) 1
  rw [hL, mul_one] at h2
  refine ⟨?_, h2, ?_⟩
  · rw [h1, hrr]; field_simp; ring
  · rw [norm_sq, ← hrr, mul_comm, lagrange, h2]

/-- The shadow energy changes by the trapezoid defect of the potential. -/
theorem step_shadow (r v : Vec2 ℝ) (p q : ℝ) (hp : 0 < p) (hq : 0 < q)
    (hrr : dot r r = p ^ 2) (hL : angmom r v = 1)
    (hqq : dot (verlet Real.sqrt r v (scale r (-1 / p ^ 3)) (1 / 1000) 1).1
      (verlet Real.sqrt r v (scale r (-1 / p ^ 3)) (1 / 1000) 1).1 = q ^ 2)
    (hL' : angmom (verlet Real.sqrt r v (scale r (-1 / p ^ 3)) (1 / 1000) 1).1
      (verlet Real.sqrt r v (scale r (-1 / p ^ 3)) (1 / 1000) 1).2.1 = 1)
    (ha' : (verlet Real.sqrt r v (scale r (-1 / p ^ 3)) (1 / 1000) 1).2.2
      = scale (verlet Real.sqrt r v (scale r (-1 / p ^ 3)) (1 / 1000) 1).1 (-1 / q ^ 3)) :
    ((dot (verlet Real.sqrt r v (scale r (-1 / p ^ 3)) (1 / 1000) 1).1
          (verlet Real.sqrt r v (scale r (-1 / p ^ 3)) (1 / 1000) 1).2.1 ^ 2 + 1) / (2 * q ^ 2)
        - 1 / q - (1 / 1000) ^ 2 / 8 / q ^ 4)
      - ((dot r v ^ 2 + 1) / (2 * p ^ 2) - 1 / p - (1 / 1000) ^ 2 / 8 / p ^ 4)
      = 1 / p - 1 / q
        - (dot r (verlet Real.sqrt r v (scale r (-1 / p ^ 3)) (1 / 1000) 1).1 - p ^ 2)
            / (2 * p ^ 3)
        - (q ^ 2 - dot r (verlet Real.sqrt r v (scale r (-1 / p ^ 3)) (1 / 1000) 1).1)
            / (2 * q ^ 3) := by
  have hs := shadow_step Real.sqrt r v (scale r (-1 / p ^ 3)) (1 / 1000) 1
  generalize hr' : (verlet Real.sqrt r v (scale r (-1 / p ^ 3)) (1 / 1000) 1).1 = r' at *
  generalize hv' : (verlet Real.sqrt r v (scale r (-1 / p ^ 3)) (1 / 1000) 1).2.1 = v' at *
  generalize hA' : (verlet Real.sqrt r v (scale r (-1 / p ^ 3)) (1 / 1000) 1).2.2 = a' at *
  subst ha'
  have hV : dot v v = (dot r v ^ 2 + 1) / p ^ 2 := by
    have := lagrange r v
    rw [hrr, hL] at this
    field_simp
    linarith
  have hV' : dot v' v' = (dot r' v' ^ 2 + 1) / q ^ 2 := by
    have := lagrange r' v'
    rw [hqq, hL'] at this
    field_simp
    linarith
  have hA : dot (scale r (-1 / p ^ 3)) (scale r (-1 / p ^ 3)) = 1 / p ^ 4 := by
    have : dot (scale r (-1 / p ^ 3)) (scale r (-1 / p ^ 3))
        = (-1 / p ^ 3) ^ 2 * dot r r := by simp only [dot, scale]; ring
    rw [this, hrr]; field_simp; ring
  have hA2 : dot (scale r' (-1 / q ^ 3)) (scale r' (-1 / q ^ 3)) = 1 / q ^ 4 := by
    have : dot (scale r' (-1 / q ^ 3)) (scale r' (-1 / q ^ 3))
        = (-1 / q ^ 3) ^ 2 * dot r' r' := by simp only [dot, scale]; ring
    rw [this, hqq]; field_simp; ring
  have hR : dot (add (scale r (-1 / p ^ 3)) (scale r' (-1 / q ^ 3))) (sub r' r)
      = (-1 / p ^ 3) * (dot r r' - dot r r) + (-1 / q ^ 3) * (dot r' r' - dot r r') := by
    simp only [dot, scale, add, sub]; ring
  rw [hV, hV', hA, hA2, hR, hrr, hqq] at hs
  have e1 : (dot r' v' ^ 2 + 1) / (2 * q ^ 2) = 1 / 2 * ((dot r' v' ^ 2 + 1) / q ^ 2) := by
    field_simp
  have e2 : (dot r v ^ 2 + 1) / (2 * p ^ 2) = 1 / 2 * ((dot r v ^ 2 + 1) / p ^ 2) := by
    field_simp
  have e3 : (dot r r' - p ^ 2) / (2 * p ^ 3) = -(1 / 2 * (-1 / p ^ 3 * (dot r r' - p ^ 2))) := by
    field_simp
  have e4 : (q ^ 2 - dot r r') / (2 * q ^ 3) = -(1 / 2 * (-1 / q ^ 3 * (q ^ 2 - dot r r'))) := by
    field_simp
  rw [e1, e2, e3, e4]
  linear_combination hs

theorem nearCircular_step (n : ℕ) (hn : n < 6283) (r v a : Vec2 ℝ)
    (h : NearCircular n (r, v, a)) :
    NearCircular (n + 1) (verlet Real.sqrt r v a (1 / 1000) 1) := by
  obtain ⟨p, θ, hr, hp, hw, hL, ha, hE, hθ1, hθ2⟩ := h
  simp only at hr hw hL ha hE
  have hp1 : 9998 / 10000 ≤ p := by linarith [(abs_le.mp hp).1]
  have hp2 : p ≤ 10002 / 10000 := by linarith [(abs_le.mp hp).2]
  have hppos : 0 < p := by linarith
  have hrr : dot r r = p ^ 2 := by rw [hr]; exact polar_dot_self p θ
  have hnp : norm Real.sqrt r = p := norm_of_dot_self r p hppos.le hrr
  have hrx : r.x = p * Real.cos θ := by rw [hr]
  have hry : r.y = p * Real.sin θ := by rw [hr]
  have haccel : a = accel Real.sqrt r 1 := by
    rw [accel_of_ge r 1 (by rw [hnp]; norm_num at hp1 ⊢; linarith), hnp, ha]
  have hL' : angmom (verlet Real.sqrt r v a (1 / 1000) 1).1
      (verlet Real.sqrt r v a (1 / 1000) 1).2.1 = 1 := by
    rw [haccel, angmom_verlet, hL]
  subst ha
  clear haccel hr
  obtain ⟨hc, hx, hqc⟩ := step_geometry r v p hppos hrr hL
  have hq0 := norm_nonneg (verlet Real.sqrt r v (scale r (-1 / p ^ 3)) (1 / 1000) 1).1
  have hqq := norm_sq (verlet Real.sqrt r v (scale r (-1 / p ^ 3)) (1 / 1000) 1).1
  have hA : (verlet Real.sqrt r v (scale r (-1 / p ^ 3)) (1 / 1000) 1).2.2
      = accel Real.sqrt (verlet Real.sqrt r v (scale r (-1 / p ^ 3)) (1 / 1000) 1).1 1 := rfl
  generalize hq : norm Real.sqrt (verlet Real.sqrt r v (scale r (-1 / p ^ 3)) (1 / 1000) 1).1
    = q at *
  obtain ⟨hqp, hc1, hc2, hT⟩ := radius_step p q _ (dot r v) hp hw hc hq0 hqc
  have hq1 : 9997 / 10000 ≤ q := by linarith [(abs_le.mp hqp).1]
  have hq2 : q ≤ 10003 / 10000 := by linarith [(abs_le.mp hqp).2]
  have hqpos : 0 < q := by linarith
  have hge : (1e-9 : ℝ) ≤ q := by
    have : (1e-9 : ℝ) ≤ 9997 / 10000 := by norm_num
    linarith
  rw [accel_of_ge _ 1 (by rw [hq]; exact hge), hq] at hA
  have hS := step_shadow r v p q hppos hqpos hrr hL hqq.symm hL' hA
  rw [← hS] at hT
  clear hS hq hqq hc
  unfold NearCircular
  generalize (verlet Real.sqrt r v (scale r (-1 / p ^ 3)) (1 / 1000) 1).1 = r' at *
  generalize (verlet Real.sqrt r v (scale r (-1 / p ^ 3)) (1 / 1000) 1).2.1 = v' at *
  generalize (verlet Real.sqrt r v (scale r (-1 / p ^ 3)) (1 / 1000) 1).2.2 = a' at *
  generalize hcdef : dot r r' = c at *
  have hq1' : |q - 1| ≤ 2005 / 10000000 := by
    have : q - 1 = (q - p) + (p - 1) := by ring
    rw [this]
    exact le_trans (abs_add _ _) (by linarith)
  have hn' : ((n + 1 : ℕ) : ℝ) = (n : ℝ) + 1 := by push_cast; ring
  have hK : ((n + 1 : ℕ) : ℝ) * (1 / 1000000000000) ≤ 6283 / 1000000000000 := by
    have : ((n + 1 : ℕ) : ℝ) ≤ 6283 := by exact_mod_cast hn
    linarith
  have hE' : |(dot r' v' ^ 2 + 1) / (2 * q ^ 2)
        - 1 / q - (1 / 1000) ^ 2 / 8 / q ^ 4 - (-(1 / 2) - (1 / 1000) ^ 2 / 8)|
      ≤ ((n + 1 : ℕ) : ℝ) * (1 / 1000000000000) := by
    have hsplit : ∀ x y z : ℝ, x - z = (x - y) + (y - z) := fun x y z => by ring
    rw [hsplit _ ((dot r v ^ 2 + 1) / (2 * p ^ 2) - 1 / p - (1 / 1000) ^ 2 / 8 / p ^ 4) _]
    refine le_trans (abs_add _ _) ?_
    rw [hn']
    linarith only [hT, hE]
  obtain ⟨hqclose, hw'⟩ := closure_bounds q _ hq1' (le_trans hE' hK)
  -- the polar angle advances by `φ`
  have e1 : p * Real.cos θ * r'.x + p * Real.sin θ * r'.y = c := by
    rw [← hcdef, ← hrx, ← hry]; rfl
  have e2 : p * Real.cos θ * r'.y - p * Real.sin θ * r'.x = 1 / 1000 := by
    rw [← hx, ← hrx, ← hry]; rfl
  obtain ⟨φ, hx', hy', hφ1, hφ2⟩ := angle_advance p q c θ r'.x r'.y hppos hqpos
    (by linarith only [hc1]) hqc
    (by linear_combination Real.cos θ * e1 - Real.sin θ * e2
      - p * r'.x * Real.cos_sq_add_sin_sq θ)
    (by linear_combination Real.sin θ * e1 + Real.cos θ * e2
      - p * r'.y * Real.cos_sq_add_sin_sq θ)
  have hφ1' : 1 / 1000 * (1 - 6 / 10000) ≤ φ := by
    have hpq : p * q ≤ 10002 / 10000 * (10003 / 10000) :=
      mul_le_mul hp2 hq2 hqpos.le (by norm_num)
    have : 1 / 1000 * (1 - 6 / 10000) ≤ 1 / 1000 / (p * q) := by
      rw [le_div_iff₀ (by positivity)]
      have : (1 / 1000 * (1 - 6 / 10000) : ℝ) * (10002 / 10000 * (10003 / 10000))
          ≤ 1 / 1000 := by norm_num
      exact le_trans (mul_le_mul_of_nonneg_left hpq (by norm_num)) this
    linarith only [this, hφ1]
  have hφ2' : φ ≤ 1 / 1000 * (1 + 6 / 10000) := by
    have : 1 / 1000 / c ≤ 1 / 1000 * (1 + 6 / 10000) := by
      rw [div_le_iff₀ (by linarith only [hc1])]
      have : (1 / 1000 : ℝ) ≤ 1 / 1000 * (1 + 6 / 10000) * (9995 / 10000) := by norm_num
      exact le_trans this (mul_le_mul_of_nonneg_left hc1 (by norm_num))
    linarith only [this, hφ2]
  refine ⟨q, θ + φ, ?_, hqclose, hw', hL', hA, hE', ?_, ?_⟩
  · show r' = ⟨q * Real.cos (θ + φ), q * Real.sin (θ + φ)⟩
    rw [← hx', ← hy']
  · rw [hn']; linarith only [hθ1, hφ1']
  · rw [hn']; linarith only [hθ2, hφ2']

theorem norm_unit_x : norm Real.sqrt (⟨1, 0⟩ : Vec2 ℝ) = 1 :=
  norm_of_dot_self _ 1 (by norm_num) (by simp only [dot]; norm_num)

theorem nearCircular_zero :
    NearCircular 0 ((⟨1, 0⟩ : Vec2 ℝ), (⟨0, 1⟩ : Vec2 ℝ), accel Real.sqrt ⟨1, 0⟩ 1) := by
  refine ⟨1, 0, ?_, ?_, ?_, ?_, ?_, ?_, ?_, ?_⟩
  · simp
  · norm_num
  · simp only [dot]; norm_num
  · simp only [angmom]; norm_num
  · show accel Real.sqrt ⟨1, 0⟩ 1 = scale ⟨1, 0⟩ (-1 / 1 ^ 3)
    rw [accel_of_ge _ 1 (by rw [norm_unit_x]; norm_num), norm_unit_x]
  · simp only [dot]; norm_num
  · norm_num
  · norm_num

theorem refRun_succ (n : ℕ) :
    refRun Real.sqrt (n + 1)
      = verlet Real.sqrt (refRun Real.sqrt n).1 (refRun Real.sqrt n).2.1
          (refRun Real.sqrt n).2.2 (1 / 1000) 1 := by
  have h : (1e-3 : ℝ) = 1 / 1000 := by norm_num
  simp only [refRun, verletN, h]

theorem nearCircular_refRun (n : ℕ) (hn : n ≤ 6283) :
    NearCircular n (refRun Real.sqrt n) := by
  induction n with
  | zero => exact nearCircular_zero
  | succ n ih =>
    rw [refRun_succ]
    exact nearCircular_step n (Nat.lt_of_succ_le hn) _ _ _ (ih (Nat.le_of_succ_le hn))

theorem energy_unit : energy Real.sqrt (⟨1, 0⟩ : Vec2 ℝ) ⟨0, 1⟩ 1 = -(1 / 2) := by
  simp only [energy, norm_unit_x, dot]; norm_num

theorem recip_pow4_bound (p : ℝ) (hp1 : 9998 / 10000 ≤ p) (hp2 : p ≤ 10002 / 10000) :
    |1 / p ^ 4 - 1| ≤ 1 / 1000 := by
  have hp : 0 < p := by linarith
  have h1 : (9998 / 10000) ^ 4 ≤ p ^ 4 := pow_le_pow_left₀ (by norm_num) hp1 4
  have h2 : p ^ 4 ≤ (10002 / 10000) ^ 4 := pow_le_pow_left₀ hp.le hp2 4
  have hp4 : 0 < p ^ 4 := by positivity
  have hu1 : 999 / 1000 ≤ 1 / p ^ 4 := by
    rw [le_div_iff₀ hp4]
    have : (999 / 1000 : ℝ) * (10002 / 10000) ^ 4 ≤ 1 := by norm_num
    exact le_trans (mul_le_mul_of_nonneg_left h2 (by norm_num)) this
  have hu2 : 1 / p ^ 4 ≤ 1001 / 1000 := by
    rw [div_le_iff₀ hp4]
    have : (1 : ℝ) ≤ 1001 / 1000 * (9998 / 10000) ^ 4 := by norm_num
    exact le_trans this (mul_le_mul_of_nonneg_left h1 (by norm_num))
  exact abs_le.mpr ⟨by linarith, by linarith⟩

theorem energy_of_nearCircular (n : ℕ) (hn : n ≤ 6283) (s : Vec2 ℝ × Vec2 ℝ × Vec2 ℝ)
    (h : NearCircular n s) :
    |energy Real.sqrt s.1 s.2.1 1 - -(1 / 2)| ≤ 1 / 100000000 := by
  obtain ⟨p, θ, hr, hp, hw, hL, ha, hE, hθ1, hθ2⟩ := h
  have hp1 : 9998 / 10000 ≤ p := by linarith [(abs_le.mp hp).1]
  have hp2 : p ≤ 10002 / 10000 := by linarith [(abs_le.mp hp).2]
  have hppos : 0 < p := by linarith
  have hrr : dot s.1 s.1 = p ^ 2 := by rw [hr]; exact polar_dot_self p θ
  have hnp : norm Real.sqrt s.1 = p := norm_of_dot_self s.1 p hppos.le hrr
  have hV : dot s.2.1 s.2.1 = (dot s.1 s.2.1 ^ 2 + 1) / p ^ 2 := by
    have := lagrange s.1 s.2.1
    rw [hrr, hL] at this
    field_simp
    linarith
  have hen : energy Real.sqrt s.1 s.2.1 1 - -(1 / 2)
      = ((dot s.1 s.2.1 ^ 2 + 1) / (2 * p ^ 2) - 1 / p - (1 / 1000) ^ 2 / 8 / p ^ 4
          - (-(1 / 2) - (1 / 1000) ^ 2 / 8))
        + (1 / 1000) ^ 2 / 8 * (1 / p ^ 4 - 1) := by
    simp only [energy, hnp, hV]
    norm_num
    field_simp
    ring
  have h4 := recip_pow4_bound p hp1 hp2
  have hc : |(1 / 1000 : ℝ) ^ 2 / 8| ≤ 1 / 8000000 := by
    rw [abs_of_pos (by norm_num)]; norm_num
  have hB := abs_mul_le_mul hc h4
  have hnK : (n : ℝ) * (1 / 1000000000000) ≤ 6283 / 1000000000000 := by
    have : (n : ℝ) ≤ 6283 := by exact_mod_cast hn
    linarith
  rw [hen]
  refine le_trans (abs_add _ _) ?_
  linarith only [hE, hB, hnK]

theorem closed_of_nearCircular (s : Vec2 ℝ × Vec2 ℝ × Vec2 ℝ) (h : NearCircular 6283 s) :
    norm Real.sqrt (sub s.1 ⟨1, 0⟩) < 1 / 100 := by
  obtain ⟨p, θ, hr, hp, hw, hL, ha, hE, hθ1, hθ2⟩ := h
  have hp1 : 9998 / 10000 ≤ p := by linarith [(abs_le.mp hp).1]
  have hp2 : p ≤ 10002 / 10000 := by linarith [(abs_le.mp hp).2]
  have hpi1 := Real.pi_gt_d6
  have hpi2 := Real.pi_lt_d6
  norm_num at hθ1 hθ2 hpi1 hpi2
  have hδ : |θ - 2 * Real.pi| ≤ 4 / 1000 := abs_le.mpr ⟨by linarith, by linarith⟩
  have hδsq : (θ - 2 * Real.pi) ^ 2 ≤ (4 / 1000) ^ 2 := sq_le_of_abs_le hδ
  have hcos : 1 - (4 / 1000) ^ 2 / 2 ≤ Real.cos θ := by
    have h1 := Real.one_sub_sq_div_two_le_cos (x := θ - 2 * Real.pi)
    rw [Real.cos_sub_two_pi] at h1
    linarith
  have hcos1 : Real.cos θ ≤ 1 := Real.cos_le_one θ
  have hd : dot (sub s.1 ⟨1, 0⟩) (sub s.1 ⟨1, 0⟩)
      = (p - 1) ^ 2 + 2 * p * (1 - Real.cos θ) := by
    rw [hr]
    simp only [dot, sub]
    linear_combination p ^ 2 * Real.cos_sq_add_sin_sq θ
  have hpsq : (p - 1) ^ 2 ≤ (1 / 5000) ^ 2 := sq_le_of_abs_le hp
  have hprod : 2 * p * (1 - Real.cos θ) ≤ 2 * (10002 / 10000) * ((4 / 1000) ^ 2 / 2) :=
    mul_le_mul (by linarith) (by linarith) (by linarith) (by norm_num)
  unfold norm
  rw [Real.sqrt_lt' (by norm_num), hd]
  have : ((1 / 5000 : ℝ)) ^ 2 + 2 * (10002 / 10000) * ((4 / 1000) ^ 2 / 2) < (1 / 100) ^ 2 := by
    norm_num
  linarith

/-- C5: in the reference run (`mu = 1`, `r = (1,0)`, `v = (0,1)`, `a = accel(r, mu)`,
`dt = 1e-3`) the specific energy `E = 0.5*dot(v,v) - mu/norm(r)` stays within `1e-4` of
its initial value after each of the 6283 iterations, and the position after the 6283rd
iteration is within distance `1e-2` of the starting position `(1, 0)`. -/
theorem C5_reference_orbit :
    (∀ n : ℕ, n ≤ 6283 →
      |energy Real.sqrt (refRun Real.sqrt n).1 (refRun Real.sqrt n).2.1 1
        - energy Real.sqrt (⟨1, 0⟩ : Vec2 ℝ) ⟨0, 1⟩ 1| < 1e-4) ∧
    norm Real.sqrt (sub (refRun Real.sqrt 6283).1 ⟨1, 0⟩) < 1e-2 := by
  constructor
  · intro n hn
    rw [energy_unit]
    have h := energy_of_nearCircular n hn _ (nearCircular_refRun n hn)
    have : (1 / 100000000 : ℝ) < 1e-4 := by norm_num
    linarith
  · have h := closed_of_nearCircular _ (nearCircular_refRun 6283 (le_refl _))
    have : (1 / 100 : ℝ) = 1e-2 := by norm_num
    rw [← this]
    exact h

theorem C5_reference_orbit_witness :
    (1 : ℕ) ≤ 6283 ∧
    |energy Real.sqrt (refRun Real.sqrt 1).1 (refRun Real.sqrt 1).2.1 1
      - energy Real.sqrt (⟨1, 0⟩ : Vec2 ℝ) ⟨0, 1⟩ 1| < 1e-4 :=
  ⟨by decide, C5_reference_orbit.1 1 (by decide)⟩

end GravitySim
